import Mathlib

/-!
Verification of the MNIST reader library (`src/lib.rs`).

Shallow embedding conventions:
* A decompressed byte buffer is a `List Nat` (each entry is one byte; where a
  claim needs it we assume entries are `≤ 255`).
* Rust slicing `&v[a..b]` panics when the bounds are out of range; we model a
  fallible slice as an `Option`, `none` standing for the panic.
* `f32` pixel values are modelled as exact rationals: the normalization
  `b as f32 / 255.0` becomes `(b : ℚ) / 255`.
* The fallible I/O layer (`read_gzip`) is an input of type
  `Except String (List Nat)`; `RustResult` distinguishes a returned `Err`
  from a panic (`.unwrap()` on an `Err`, or an out-of-bounds slice).
-/

/-- Rust `&v[a..b]`: `some` of the slice when `a ≤ b ∧ b ≤ v.len()`,
`none` (panic) otherwise. -/
def sliceRange (data : List Nat) (a b : Nat) : Option (List Nat) :=
  if a ≤ b ∧ b ≤ data.length then some ((data.drop a).take (b - a)) else none

/-- Rust `&v[a..]`: `some (v.drop a)` when `a ≤ v.len()`, `none` (panic)
otherwise. -/
def sliceFrom (data : List Nat) (a : Nat) : Option (List Nat) :=
  if a ≤ data.length then some (data.drop a) else none

/-- Rust `u32::from_be_bytes` on a 4-byte slice (big-endian). -/
def u32FromBeBytes (bs : List Nat) : Nat :=
  ((bs.getD 0 0 * 256 + bs.getD 1 0) * 256 + bs.getD 2 0) * 256 + bs.getD 3 0

/-- The parsing part of `read_mnist_labels` (lib.rs:148-153): skip the 8-byte
header, return the rest; `data[8..]` panics when the buffer is shorter than 8. -/
def read_mnist_labels_bytes (data : List Nat) : Option (List Nat) :=
  sliceFrom data 8

/-- Pixel normalization of `read_mnist_images` (lib.rs:173): `b as f32 / 255.0`,
modelled over `ℚ`. -/
def pixel (b : Nat) : ℚ := (b : ℚ) / 255

/-- The image loop of `read_mnist_images` (lib.rs:168-176): starting at image
index `i`, decode `n` more images of `imageSize` bytes each out of
`imagesRaw` (the buffer after the 16-byte header). Each iteration slices
`images_raw[start..end]` and maps `pixel` over it. -/
def readImagesFrom (imagesRaw : List Nat) (imageSize i n : Nat) :
    Option (List (List ℚ)) :=
  match n with
  | 0 => some []
  | n + 1 => do
      let raw ← sliceRange imagesRaw (i * imageSize) (i * imageSize + imageSize)
      let rest ← readImagesFrom imagesRaw imageSize (i + 1) n
      pure (raw.map pixel :: rest)

/-- The parsing part of `read_mnist_images` (lib.rs:156-178): read the three
big-endian header fields at offsets 4, 8, 12, compute
`image_size = num_rows * num_cols`, take `raw_bytes[16..]`, then decode
`num_images` images. -/
def read_mnist_images_bytes (data : List Nat) : Option (List (List ℚ)) := do
  let cntBytes ← sliceRange data 4 8
  let rowBytes ← sliceRange data 8 12
  let colBytes ← sliceRange data 12 16
  let numImages := u32FromBeBytes cntBytes
  let numRows := u32FromBeBytes rowBytes
  let numCols := u32FromBeBytes colBytes
  let imageSize := numRows * numCols
  let imagesRaw ← sliceFrom data 16
  readImagesFrom imagesRaw imageSize 0 numImages

/-- The image-count header field (big-endian u32 at offset 4). -/
def imgCount (data : List Nat) : Nat := u32FromBeBytes ((data.drop 4).take 4)

/-- The row-count header field (big-endian u32 at offset 8). -/
def imgRows (data : List Nat) : Nat := u32FromBeBytes ((data.drop 8).take 4)

/-- The column-count header field (big-endian u32 at offset 12). -/
def imgCols (data : List Nat) : Nat := u32FromBeBytes ((data.drop 12).take 4)

/-- Outcome of a Rust function returning `io::Result`: a returned `Ok`,
a returned `Err`, or a panic (which never reaches the caller as a value). -/
inductive RustResult (ε α : Type) where
  | ok (a : α)
  | err (e : ε)
  | panicked
deriving Repr, DecidableEq

/-- `read_mnist_labels` (lib.rs:148-153): `read_gzip` result is the input;
its `Err` is propagated by `?`, an out-of-bounds slice in the parsing is a
panic. -/
def read_mnist_labels (gz : Except String (List Nat)) :
    RustResult String (List Nat) :=
  match gz with
  | .error e => .err e
  | .ok data =>
      match read_mnist_labels_bytes data with
      | none => .panicked
      | some labels => .ok labels

/-- `read_mnist_images` (lib.rs:156-178) with the `read_gzip` result as
input. -/
def read_mnist_images (gz : Except String (List Nat)) :
    RustResult String (List (List ℚ)) :=
  match gz with
  | .error e => .err e
  | .ok data =>
      match read_mnist_images_bytes data with
      | none => .panicked
      | some images => .ok images

/-- The `MnistReader` struct (lib.rs:43-50). -/
structure MnistReader where
  train_labels : List Nat
  train_data : List (List ℚ)
  test_labels : List Nat
  test_data : List (List ℚ)
  mnist_url : String
  save_dir : String
deriving Repr, DecidableEq

/-- `MNIST_DATA_URL` (lib.rs:36). -/
def MNIST_DATA_URL : String := "https://raw.githubusercontent.com/fgnt/mnist/master"

/-- `MnistReader::new` (lib.rs:53-62). -/
def MnistReader.new (save_dir : String) : MnistReader :=
  { train_labels := []
    train_data := []
    test_labels := []
    test_data := []
    mnist_url := MNIST_DATA_URL
    save_dir := save_dir }

/-- `MnistReader::load_data` (lib.rs:97-111): the two `read_gzip` outcomes for
the label and image archives are inputs. The source calls
`read_mnist_labels(..).unwrap()` and `read_mnist_images(..).unwrap()`, so a
returned `Err` from either reader panics here instead of being returned. -/
def MnistReader.load_data (st : MnistReader) (is_train : Bool)
    (labelGz imageGz : Except String (List Nat)) :
    RustResult String MnistReader :=
  match read_mnist_labels labelGz with
  | .err _ => .panicked
  | .panicked => .panicked
  | .ok labels =>
      match read_mnist_images imageGz with
      | .err _ => .panicked
      | .panicked => .panicked
      | .ok images =>
          if is_train then
            .ok { st with train_labels := labels, train_data := images }
          else
            .ok { st with test_labels := labels, test_data := images }

/-- The glyph choice of `print_image` (lib.rs:184-188): `'*'` when the pixel
exceeds 0.5, `'_'` otherwise. -/
def glyph (p : ℚ) : Char := if p > 1/2 then '*' else '_'

/-- Rust `slice::chunks n` (non-zero `n`): split into consecutive chunks of at
most `n` elements. -/
def chunksOf (n : Nat) (l : List α) : List (List α) :=
  if h : l.length = 0 ∨ n = 0 then [] else
    have : l.length - n < l.length :=
      Nat.sub_lt (Nat.pos_of_ne_zero (fun h0 => h (Or.inl h0)))
        (Nat.pos_of_ne_zero (fun hn => h (Or.inr hn)))
    l.take n :: chunksOf n (l.drop n)
termination_by l.length
decreasing_by simpa using this

/-- `print_image` (lib.rs:181-192), with standard output modelled as the
returned string: for each chunk of 28 pixels, one glyph per pixel followed by
a newline. -/
def print_image (image : List ℚ) : String :=
  String.join ((chunksOf 28 image).map (fun row => String.mk (row.map glyph) ++ "\n"))

/-- C3: for every label buffer of length at least 8, the decoder returns
exactly the bytes from offset 8 on, in order, and the label count is the
buffer length minus 8. -/
theorem labels_drop_header (data : List Nat) (h : 8 ≤ data.length) :
    read_mnist_labels_bytes data = some (data.drop 8) ∧
    (data.drop 8).length = data.length - 8 := by
  constructor
  · simp [read_mnist_labels_bytes, sliceFrom, h]
  · simp

/-- Witness for C3 at a concrete 11-byte buffer. -/
theorem labels_drop_header_witness :
    read_mnist_labels_bytes [0, 0, 8, 1, 0, 0, 0, 3, 5, 0, 9] = some [5, 0, 9] ∧
    ([0, 0, 8, 1, 0, 0, 0, 3, 5, 0, 9].drop 8).length = 11 - 8 := by
  have h := labels_drop_header [0, 0, 8, 1, 0, 0, 0, 3, 5, 0, 9] (by decide)
  simpa using h

/-- C6 counterexample: with 8 header-filler bytes after the 4 magic bytes
(12 bytes before the payload) and filler all zero, the decoder keeps the last
4 filler bytes: it yields [0, 0, 0, 0, 5, 0, 9], not [5, 0, 9]. -/
theorem label_scenario_cex :
    read_mnist_labels_bytes
        ([0, 0, 8, 1] ++ List.replicate 8 0 ++ [5, 0, 9]) =
      some [0, 0, 0, 0, 5, 0, 9] ∧
    some [0, 0, 0, 0, 5, 0, 9] ≠ some ([5, 0, 9] : List Nat) := by
  constructor
  · rfl
  · decide

/-- C6 amended: with 4 header-filler bytes after the 4 magic bytes (an 8-byte
header in total) followed by the bytes [5, 0, 9], the label decoder yields
exactly [5, 0, 9], whatever the filler bytes are. -/
theorem label_scenario_amended (a b c d : Nat) :
    read_mnist_labels_bytes ([0, 0, 8, 1] ++ [a, b, c, d] ++ [5, 0, 9]) =
      some [5, 0, 9] := by
  rfl

/-- C9: `MnistReader::new s` has all four collections empty, the fixed default
URL, and `save_dir = s`. -/
theorem mnist_reader_new_fields (s : String) :
    (MnistReader.new s).train_labels = [] ∧
    (MnistReader.new s).train_data = [] ∧
    (MnistReader.new s).test_labels = [] ∧
    (MnistReader.new s).test_data = [] ∧
    (MnistReader.new s).mnist_url =
      "https://raw.githubusercontent.com/fgnt/mnist/master" ∧
    (MnistReader.new s).save_dir = s := by
  refine ⟨rfl, rfl, rfl, rfl, rfl, rfl⟩

/-- C5: evaluating `load_data` at a failing gzip read of the label archive.
The source unwraps the reader result (lib.rs:101-102), so the I/O failure
panics instead of being returned as an `Err` to the caller. -/
theorem load_data_panics_on_gzip_error :
    (MnistReader.new "data").load_data true
        (Except.error "No such file or directory") (Except.ok []) =
      RustResult.panicked ∧
    ∀ e : String,
      (MnistReader.new "data").load_data true
          (Except.error "No such file or directory") (Except.ok []) ≠
        RustResult.err e := by
  constructor
  · rfl
  · intro e h
    simp [MnistReader.load_data, read_mnist_labels] at h

/-- The image loop succeeds and is fully determined by the raw bytes when the
buffer covers all requested images: image `k` (of the `n` decoded, starting at
index `i`) is the `pixel`-image of bytes `[(i+k)*size, (i+k)*size + size)`. -/
theorem readImagesFrom_eq_of_le (raw : List Nat) (size : Nat) :
    ∀ n i, (i + n) * size ≤ raw.length →
    readImagesFrom raw size i n =
      some ((List.range n).map
        (fun k => ((raw.drop ((i + k) * size)).take size).map pixel)) := by
  intro n
  induction n with
  | zero => intro i h; simp [readImagesFrom]
  | succ n ih =>
      intro i h
      have hslice : i * size + size ≤ raw.length := by
        rw [Nat.add_mul] at h; nlinarith
      have hs : sliceRange raw (i * size) (i * size + size) =
          some ((raw.drop (i * size)).take size) := by
        simp [sliceRange, hslice]
      have hrec := ih (i + 1) (by
        have hidx : i + 1 + n = i + (n + 1) := by omega
        rw [hidx]; exact h)
      rw [readImagesFrom, hs, hrec]
      simp only [Option.bind_eq_bind, Option.some_bind, List.range_succ_eq_map,
        List.map_cons, List.map_map]
      refine congrArg some (congrArg₂ List.cons (by simp) ?_)
      refine List.map_congr_left (fun k _ => ?_)
      have hidx2 : i + Nat.succ k = i + 1 + k := by omega
      simp [Function.comp, hidx2]

/-- The image loop panics (an out-of-bounds slice) when at least one image is
requested and the buffer is too short for all of them. -/
theorem readImagesFrom_eq_none (raw : List Nat) (size : Nat) :
    ∀ n i, 1 ≤ n → raw.length < (i + n) * size →
    readImagesFrom raw size i n = none := by
  intro n
  induction n with
  | zero => intro i h; omega
  | succ n ih =>
      intro i _ hlt
      by_cases hsl : i * size ≤ i * size + size ∧ i * size + size ≤ raw.length
      · match n, ih with
        | 0, _ =>
            rw [Nat.add_mul] at hlt
            omega
        | n + 1, ih =>
            have hrec := ih (i + 1) (by omega) (by
              have hidx : i + 1 + (n + 1) = i + (n + 1 + 1) := by omega
              rw [hidx]; exact hlt)
            rw [readImagesFrom]
            simp [sliceRange, hsl.2, hrec]
      · rw [readImagesFrom]
        simp only [sliceRange, if_neg hsl]
        rfl

/-- Header-field normal forms of the slices read by `read_mnist_images_bytes`. -/
theorem header_slices (data : List Nat) (h16 : 16 ≤ data.length) :
    sliceRange data 4 8 = some ((data.drop 4).take 4) ∧
    sliceRange data 8 12 = some ((data.drop 8).take 4) ∧
    sliceRange data 12 16 = some ((data.drop 12).take 4) ∧
    sliceFrom data 16 = some (data.drop 16) := by
  refine ⟨?_, ?_, ?_, ?_⟩ <;> simp [sliceRange, sliceFrom] <;> omega

/-- `read_mnist_images_bytes` in closed form when the buffer covers the whole
pixel area: image `k` is the normalization of bytes
`[16 + k*size, 16 + (k+1)*size)`. -/
theorem read_images_bytes_eq (data : List Nat) (h16 : 16 ≤ data.length)
    (h : imgCount data * (imgRows data * imgCols data) ≤ data.length - 16) :
    read_mnist_images_bytes data =
      some ((List.range (imgCount data)).map
        (fun k => (((data.drop 16).drop (k * (imgRows data * imgCols data))).take
            (imgRows data * imgCols data)).map pixel)) := by
  obtain ⟨h1, h2, h3, h4⟩ := header_slices data h16
  have hloop := readImagesFrom_eq_of_le (data.drop 16)
    (imgRows data * imgCols data) (imgCount data) 0 (by
      simpa using h)
  rw [read_mnist_images_bytes, h1, h2, h3]
  simp only [Option.bind_eq_bind, Option.some_bind]
  rw [h4]
  simp only [Option.some_bind]
  rw [show u32FromBeBytes ((data.drop 4).take 4) = imgCount data from rfl,
    show u32FromBeBytes ((data.drop 8).take 4) = imgRows data from rfl,
    show u32FromBeBytes ((data.drop 12).take 4) = imgCols data from rfl]
  rw [hloop]
  simp

/-- `read_mnist_images_bytes` panics when the pixel area is too short for the
announced image count (and at least one image is announced). -/
theorem read_images_bytes_eq_none (data : List Nat) (h16 : 16 ≤ data.length)
    (h : data.length - 16 < imgCount data * (imgRows data * imgCols data))
    (hc : 1 ≤ imgCount data) :
    read_mnist_images_bytes data = none := by
  obtain ⟨h1, h2, h3, h4⟩ := header_slices data h16
  have hloop := readImagesFrom_eq_none (data.drop 16)
    (imgRows data * imgCols data) (imgCount data) 0 hc (by
      simpa using h)
  rw [read_mnist_images_bytes, h1, h2, h3]
  simp only [Option.bind_eq_bind, Option.some_bind]
  rw [h4]
  simp only [Option.some_bind]
  rw [show u32FromBeBytes ((data.drop 4).take 4) = imgCount data from rfl,
    show u32FromBeBytes ((data.drop 8).take 4) = imgRows data from rfl,
    show u32FromBeBytes ((data.drop 12).take 4) = imgCols data from rfl]
  exact hloop

/-- Each decoded chunk has length `rows * cols` when the buffer covers the
whole pixel area. -/
theorem chunk_length (data : List Nat) (k : Nat)
    (hk : k < imgCount data)
    (h : 16 + imgCount data * (imgRows data * imgCols data) ≤ data.length) :
    ((((data.drop 16).drop (k * (imgRows data * imgCols data))).take
        (imgRows data * imgCols data)).map pixel).length =
      imgRows data * imgCols data := by
  have hsz : (k + 1) * (imgRows data * imgCols data) ≤
      imgCount data * (imgRows data * imgCols data) :=
    Nat.mul_le_mul_right _ hk
  rw [Nat.add_mul] at hsz
  simp only [List.length_map, List.length_take, List.length_drop]
  omega

/-- C1: when the buffer covers the header plus `count * rows * cols` pixel
bytes, the decoder produces exactly `count` images of length `rows * cols`,
with pixel `j` of image `i` the normalization of the byte at offset
`16 + i * (rows * cols) + j`. -/
theorem images_decode_complete (data : List Nat)
    (h : 16 + imgCount data * (imgRows data * imgCols data) ≤ data.length) :
    ∃ images, read_mnist_images_bytes data = some images ∧
      images.length = imgCount data ∧
      (∀ i < imgCount data,
        (images.getD i []).length = imgRows data * imgCols data) ∧
      ∀ i < imgCount data, ∀ j < imgRows data * imgCols data,
        (images.getD i []).getD j 0 =
          pixel (data.getD (16 + i * (imgRows data * imgCols data) + j) 0) := by
  have h16 : 16 ≤ data.length := by omega
  have hle : imgCount data * (imgRows data * imgCols data) ≤ data.length - 16 := by
    omega
  have hgi : ∀ i, i < imgCount data →
      ((List.range (imgCount data)).map
        (fun k => (((data.drop 16).drop (k * (imgRows data * imgCols data))).take
            (imgRows data * imgCols data)).map pixel)).getD i [] =
      (((data.drop 16).drop (i * (imgRows data * imgCols data))).take
          (imgRows data * imgCols data)).map pixel := by
    intro i hi
    rw [List.getD_eq_getElem?_getD, List.getElem?_map, List.getElem?_range hi,
      Option.map_some', Option.getD_some]
  refine ⟨_, read_images_bytes_eq data h16 hle, by simp, ?_, ?_⟩
  · intro i hi
    rw [hgi i hi]
    exact chunk_length data i hi h
  · intro i hi j hj
    rw [hgi i hi]
    have hsz : (i + 1) * (imgRows data * imgCols data) ≤
        imgCount data * (imgRows data * imgCols data) :=
      Nat.mul_le_mul_right _ hi
    rw [Nat.add_mul] at hsz
    have hidx : 16 + (i * (imgRows data * imgCols data) + j) < data.length := by
      omega
    rw [List.getD_eq_getElem?_getD, List.getElem?_map, List.getElem?_take,
      if_pos hj, List.getElem?_drop, List.getElem?_drop,
      List.getElem?_eq_getElem hidx, Option.map_some', Option.getD_some]
    have hidx2 : 16 + i * (imgRows data * imgCols data) + j =
        16 + (i * (imgRows data * imgCols data) + j) := by omega
    rw [hidx2, List.getD_eq_getElem?_getD, List.getElem?_eq_getElem hidx,
      Option.getD_some]

/-- Witness for C1 at the synthetic 2-image 2x2 buffer from the spec. -/
theorem images_decode_complete_witness :
    ∃ images, read_mnist_images_bytes
        [0, 0, 8, 3, 0, 0, 0, 2, 0, 0, 0, 2, 0, 0, 0, 2,
         0, 255, 128, 64, 255, 0, 64, 128] = some images ∧
      images.length = 2 ∧
      (∀ i < 2, (images.getD i []).length = 4) ∧
      ∀ i < 2, ∀ j < 4,
        (images.getD i []).getD j 0 =
          pixel ([0, 0, 8, 3, 0, 0, 0, 2, 0, 0, 0, 2, 0, 0, 0, 2,
            0, 255, 128, 64, 255, 0, 64, 128].getD (16 + i * 4 + j) 0) :=
  images_decode_complete
    [0, 0, 8, 3, 0, 0, 0, 2, 0, 0, 0, 2, 0, 0, 0, 2,
     0, 255, 128, 64, 255, 0, 64, 128] (by decide)

/-- C2: a buffer of exactly `16 + count*rows*cols` bytes decodes successfully;
one at least 16 bytes long but shorter than that (with at least one image of
at least one pixel announced) makes the decoder panic (out-of-bounds slice)
instead of returning a truncated result. -/
theorem images_exact_ok_short_panics :
    (∀ data : List Nat,
        data.length = 16 + imgCount data * (imgRows data * imgCols data) →
        ∃ images, read_mnist_images_bytes data = some images) ∧
    (∀ data : List Nat,
        16 ≤ data.length →
        data.length < 16 + imgCount data * (imgRows data * imgCols data) →
        1 ≤ imgCount data → 1 ≤ imgRows data * imgCols data →
        read_mnist_images_bytes data = none) := by
  constructor
  · intro data hlen
    exact ⟨_, read_images_bytes_eq data (by omega) (by omega)⟩
  · intro data h16 hshort hc _
    exact read_images_bytes_eq_none data h16 (by omega) hc

/-- Witness for C2: a 1-image 2x2 buffer of exact length 20 decodes; the same
buffer one byte shorter panics. -/
theorem images_exact_ok_short_panics_witness :
    (∃ images, read_mnist_images_bytes
        [0, 0, 8, 3, 0, 0, 0, 1, 0, 0, 0, 2, 0, 0, 0, 2, 10, 20, 30, 40] =
      some images) ∧
    read_mnist_images_bytes
        [0, 0, 8, 3, 0, 0, 0, 1, 0, 0, 0, 2, 0, 0, 0, 2, 10, 20, 30] = none :=
  ⟨images_exact_ok_short_panics.1
      [0, 0, 8, 3, 0, 0, 0, 1, 0, 0, 0, 2, 0, 0, 0, 2, 10, 20, 30, 40]
      (by decide),
    images_exact_ok_short_panics.2
      [0, 0, 8, 3, 0, 0, 0, 1, 0, 0, 0, 2, 0, 0, 0, 2, 10, 20, 30]
      (by decide) (by decide) (by decide) (by decide)⟩

/-- C10: a buffer strictly longer than `16 + count*rows*cols` still decodes,
to exactly the images of its exact-length prefix (the trailing bytes are
ignored), and produces `count` images. -/
theorem images_ignore_trailing (data : List Nat)
    (h : 16 + imgCount data * (imgRows data * imgCols data) < data.length) :
    ∃ images,
      read_mnist_images_bytes data = some images ∧
      read_mnist_images_bytes
          (data.take (16 + imgCount data * (imgRows data * imgCols data))) =
        some images ∧
      images.length = imgCount data := by
  have h16 : 16 ≤ data.length := by omega
  have hle : imgCount data * (imgRows data * imgCols data) ≤ data.length - 16 := by
    omega
  have htake : ∀ a : Nat, a + 4 ≤ 16 →
      ((data.take (16 + imgCount data * (imgRows data * imgCols data))).drop a).take 4 =
      (data.drop a).take 4 := by
    intro a ha
    rw [List.drop_take, List.take_take]
    congr 1
    omega
  have hcnt : imgCount (data.take (16 + imgCount data * (imgRows data * imgCols data))) =
      imgCount data :=
    congrArg u32FromBeBytes (htake 4 (by omega))
  have hrows : imgRows (data.take (16 + imgCount data * (imgRows data * imgCols data))) =
      imgRows data :=
    congrArg u32FromBeBytes (htake 8 (by omega))
  have hcols : imgCols (data.take (16 + imgCount data * (imgRows data * imgCols data))) =
      imgCols data :=
    congrArg u32FromBeBytes (htake 12 (by omega))
  have hplen : (data.take (16 + imgCount data * (imgRows data * imgCols data))).length =
      16 + imgCount data * (imgRows data * imgCols data) := by
    rw [List.length_take]
    omega
  have hP16 : 16 ≤ (data.take (16 + imgCount data * (imgRows data * imgCols data))).length := by
    rw [hplen]
    omega
  have hPle : imgCount (data.take (16 + imgCount data * (imgRows data * imgCols data))) *
      (imgRows (data.take (16 + imgCount data * (imgRows data * imgCols data))) *
        imgCols (data.take (16 + imgCount data * (imgRows data * imgCols data)))) ≤
      (data.take (16 + imgCount data * (imgRows data * imgCols data))).length - 16 := by
    rw [hcnt, hrows, hcols, hplen]
    omega
  refine ⟨_, read_images_bytes_eq data h16 hle, ?_, by simp⟩
  rw [read_images_bytes_eq _ hP16 hPle, hcnt, hrows, hcols]
  refine congrArg some (List.map_congr_left fun k hk => ?_)
  refine congrArg (List.map pixel) ?_
  rw [List.drop_take, List.drop_take, List.take_take]
  congr 1
  have hsz : (k + 1) * (imgRows data * imgCols data) ≤
      imgCount data * (imgRows data * imgCols data) :=
    Nat.mul_le_mul_right _ (List.mem_range.mp hk)
  rw [Nat.add_mul] at hsz
  omega

/-- Witness for C10: a 1-image 1x1 buffer with two trailing garbage bytes
decodes the same as its 17-byte prefix. -/
theorem images_ignore_trailing_witness :
    ∃ images,
      read_mnist_images_bytes
          [0, 0, 8, 3, 0, 0, 0, 1, 0, 0, 0, 1, 0, 0, 0, 1, 51, 99, 99] =
        some images ∧
      read_mnist_images_bytes
          ([0, 0, 8, 3, 0, 0, 0, 1, 0, 0, 0, 1, 0, 0, 0, 1, 51, 99, 99].take 17) =
        some images ∧
      images.length = 1 :=
  images_ignore_trailing
    [0, 0, 8, 3, 0, 0, 0, 1, 0, 0, 0, 1, 0, 0, 0, 1, 51, 99, 99] (by decide)

/-- Every image produced by the image loop is the `pixel`-map of some sublist
of the raw buffer. -/
theorem readImagesFrom_subset (raw : List Nat) (size : Nat) :
    ∀ n i imgs, readImagesFrom raw size i n = some imgs →
    ∀ img ∈ imgs, ∃ l, l ⊆ raw ∧ img = l.map pixel := by
  intro n
  induction n with
  | zero =>
      intro i imgs h img hmem
      rw [readImagesFrom] at h
      cases h
      simp at hmem
  | succ n ih =>
      intro i imgs h img hmem
      rw [readImagesFrom] at h
      cases hs : sliceRange raw (i * size) (i * size + size) with
      | none => rw [hs] at h; simp at h
      | some raw_i =>
      rw [hs] at h
      simp only [Option.bind_eq_bind, Option.some_bind] at h
      cases hr : readImagesFrom raw size (i + 1) n with
      | none => rw [hr] at h; simp at h
      | some rest =>
      rw [hr] at h
      simp only [Option.some_bind] at h
      simp only [pure] at h
      cases h
      rcases List.mem_cons.mp hmem with hmem1 | hmem1
      · subst hmem1
        refine ⟨raw_i, ?_, rfl⟩
        rw [sliceRange] at hs
        split at hs
        · cases hs
          exact (List.take_subset _ _).trans (List.drop_subset _ _)
        · cases hs
      · exact ih (i + 1) rest hr img hmem1

/-- C7: every pixel value produced by the image decoder is the exact quotient
`b / 255` of a raw byte `b` of the buffer, and lies in the interval [0, 1]. -/
theorem pixels_normalized (data : List Nat) (images : List (List ℚ))
    (hdec : read_mnist_images_bytes data = some images)
    (hbytes : ∀ b ∈ data, b ≤ 255) :
    ∀ img ∈ images, ∀ p ∈ img,
      0 ≤ p ∧ p ≤ 1 ∧ ∃ b ∈ data, b ≤ 255 ∧ p = (b : ℚ) / 255 := by
  rw [read_mnist_images_bytes] at hdec
  cases h1 : sliceRange data 4 8 with
  | none => rw [h1] at hdec; simp at hdec
  | some cntBytes =>
  rw [h1] at hdec
  simp only [Option.bind_eq_bind, Option.some_bind] at hdec
  cases h2 : sliceRange data 8 12 with
  | none => rw [h2] at hdec; simp at hdec
  | some rowBytes =>
  rw [h2] at hdec
  simp only [Option.some_bind] at hdec
  cases h3 : sliceRange data 12 16 with
  | none => rw [h3] at hdec; simp at hdec
  | some colBytes =>
  rw [h3] at hdec
  simp only [Option.some_bind] at hdec
  cases h4 : sliceFrom data 16 with
  | none => rw [h4] at hdec; simp at hdec
  | some raw =>
  rw [h4] at hdec
  simp only [Option.some_bind] at hdec
  have hraw : raw ⊆ data := by
    rw [sliceFrom] at h4
    split at h4
    · cases h4; exact List.drop_subset _ _
    · cases h4
  intro img hmem p hp
  obtain ⟨l, hsub, rfl⟩ :=
    readImagesFrom_subset raw _ _ _ images hdec img hmem
  obtain ⟨b, hbmem, rfl⟩ := List.mem_map.mp hp
  have hbd : b ∈ data := hraw (hsub hbmem)
  have hb : b ≤ 255 := hbytes b hbd
  refine ⟨?_, ?_, b, hbd, hb, rfl⟩
  · exact div_nonneg (by positivity) (by norm_num)
  · rw [pixel, div_le_one (by norm_num)]
    exact_mod_cast hb

/-- Witness for C7: in the 1-image 1x1 buffer with pixel byte 51, the decoded
pixel 51/255 comes from a byte of the buffer and lies in [0, 1]. -/
theorem pixels_normalized_witness :
    0 ≤ pixel 51 ∧ pixel 51 ≤ 1 ∧
    ∃ b ∈ ([0, 0, 8, 3, 0, 0, 0, 1, 0, 0, 0, 1, 0, 0, 0, 1, 51] : List Nat),
      b ≤ 255 ∧ pixel 51 = (b : ℚ) / 255 :=
  pixels_normalized
    [0, 0, 8, 3, 0, 0, 0, 1, 0, 0, 0, 1, 0, 0, 0, 1, 51]
    [[pixel 51]] rfl (by decide)
    [pixel 51] (by simp) (pixel 51) (by simp)

/-- C4: loading a split from a well-formed archive pair yields as many labels
as images, both equal to the image-count header field, and every image of
uniform length `rows * cols`. -/
theorem load_data_wellformed (st : MnistReader) (is_train : Bool)
    (labelBuf imageBuf : List Nat)
    (hl : labelBuf.length = 8 + imgCount imageBuf)
    (hi : imageBuf.length =
      16 + imgCount imageBuf * (imgRows imageBuf * imgCols imageBuf)) :
    ∃ st2,
      st.load_data is_train (Except.ok labelBuf) (Except.ok imageBuf) =
        RustResult.ok st2 ∧
      (cond is_train st2.train_labels st2.test_labels).length = imgCount imageBuf ∧
      (cond is_train st2.train_data st2.test_data).length = imgCount imageBuf ∧
      ∀ img ∈ cond is_train st2.train_data st2.test_data,
        img.length = imgRows imageBuf * imgCols imageBuf := by
  have h8 : 8 ≤ labelBuf.length := by omega
  have hlab : read_mnist_labels (Except.ok labelBuf) =
      RustResult.ok (labelBuf.drop 8) := by
    simp [read_mnist_labels, read_mnist_labels_bytes, sliceFrom, h8]
  have himg := read_images_bytes_eq imageBuf (by omega) (by omega)
  have himg2 : read_mnist_images (Except.ok imageBuf) =
      RustResult.ok ((List.range (imgCount imageBuf)).map
        (fun k => (((imageBuf.drop 16).drop
            (k * (imgRows imageBuf * imgCols imageBuf))).take
          (imgRows imageBuf * imgCols imageBuf)).map pixel)) := by
    simp only [read_mnist_images, himg]
  have hmemlen : ∀ img ∈ (List.range (imgCount imageBuf)).map
      (fun k => (((imageBuf.drop 16).drop
          (k * (imgRows imageBuf * imgCols imageBuf))).take
        (imgRows imageBuf * imgCols imageBuf)).map pixel),
      img.length = imgRows imageBuf * imgCols imageBuf := by
    intro img hm
    obtain ⟨k, hk, rfl⟩ := List.mem_map.mp hm
    exact chunk_length imageBuf k (List.mem_range.mp hk) (by omega)
  cases is_train with
  | true =>
      refine ⟨{ st with
                  train_labels := labelBuf.drop 8,
                  train_data := (List.range (imgCount imageBuf)).map
                    (fun k => (((imageBuf.drop 16).drop
                        (k * (imgRows imageBuf * imgCols imageBuf))).take
                      (imgRows imageBuf * imgCols imageBuf)).map pixel) },
        ?_, ?_, ?_, ?_⟩
      · simp only [MnistReader.load_data, hlab, himg2]
        rfl
      · show (labelBuf.drop 8).length = imgCount imageBuf
        simp only [List.length_drop]
        omega
      · show ((List.range (imgCount imageBuf)).map _).length = imgCount imageBuf
        simp
      · exact hmemlen
  | false =>
      refine ⟨{ st with
                  test_labels := labelBuf.drop 8,
                  test_data := (List.range (imgCount imageBuf)).map
                    (fun k => (((imageBuf.drop 16).drop
                        (k * (imgRows imageBuf * imgCols imageBuf))).take
                      (imgRows imageBuf * imgCols imageBuf)).map pixel) },
        ?_, ?_, ?_, ?_⟩
      · simp only [MnistReader.load_data, hlab, himg2]
        rfl
      · show (labelBuf.drop 8).length = imgCount imageBuf
        simp only [List.length_drop]
        omega
      · show ((List.range (imgCount imageBuf)).map _).length = imgCount imageBuf
        simp
      · exact hmemlen

/-- Witness for C4 at a well-formed 1-image 1x1 pair. -/
theorem load_data_wellformed_witness :
    ∃ st2,
      (MnistReader.new "d").load_data true
          (Except.ok [0, 0, 8, 1, 0, 0, 0, 1, 5])
          (Except.ok [0, 0, 8, 3, 0, 0, 0, 1, 0, 0, 0, 1, 0, 0, 0, 1, 51]) =
        RustResult.ok st2 ∧
      (cond true st2.train_labels st2.test_labels).length = 1 ∧
      (cond true st2.train_data st2.test_data).length = 1 ∧
      ∀ img ∈ cond true st2.train_data st2.test_data, img.length = 1 :=
  load_data_wellformed (MnistReader.new "d") true
    [0, 0, 8, 1, 0, 0, 0, 1, 5]
    [0, 0, 8, 3, 0, 0, 0, 1, 0, 0, 0, 1, 0, 0, 0, 1, 51]
    (by decide) (by decide)

/-- `chunksOf 28` of a list of length `28 * k` is the list of the `k`
consecutive 28-element windows at offsets `28 * r`. -/
theorem chunksOf_28_eq_windows {α : Type} (k : Nat) :
    ∀ l : List α, l.length = 28 * k →
    chunksOf 28 l = (List.range k).map (fun r => (l.drop (28 * r)).take 28) := by
  induction k with
  | zero =>
      intro l hl
      simp at hl
      subst hl
      rw [chunksOf]
      simp
  | succ k ih =>
      intro l hl
      rw [chunksOf, dif_neg (by omega)]
      have hrec := ih (l.drop 28) (by simp [hl]; omega)
      rw [hrec, List.range_succ_eq_map, List.map_cons, List.map_map]
      congr 1
      apply List.map_congr_left
      intro a ha
      simp only [Function.comp_apply, List.drop_drop, Nat.succ_eq_add_one]
      rw [show 28 + 28 * a = 28 * (a + 1) from by omega]

/-- C8: for an image that is `k` full rows of 28 pixels, the printer output is
row-major with fixed width 28: row `r` is one glyph per pixel for pixels
`28*r .. 28*r + 27` (glyph by the 0.5 threshold), followed by one newline. -/
theorem print_image_rows (image : List ℚ) (k : Nat)
    (hlen : image.length = 28 * k) :
    print_image image =
      String.join ((List.range k).map (fun r =>
        String.mk (((image.drop (28 * r)).take 28).map glyph) ++ "\n")) := by
  rw [print_image, chunksOf_28_eq_windows k image hlen, List.map_map]
  rfl

/-- Witness for C8 at a concrete one-row image. -/
theorem print_image_rows_witness :
    print_image (List.replicate 14 (0 : ℚ) ++ List.replicate 14 1) =
      String.join ((List.range 1).map (fun r =>
        String.mk ((((List.replicate 14 (0 : ℚ) ++
          List.replicate 14 1).drop (28 * r)).take 28).map glyph) ++ "\n")) :=
  print_image_rows (List.replicate 14 (0 : ℚ) ++ List.replicate 14 1) 1
    (by simp)
